import Mathlib

/-!
Verification of the day-scheduler widget (`src/App.jsx`).

The schedule for one day is a JavaScript object mapping a time-slot label
(one of the 18 strings in `timeSlots`) to a placement `{ taskId, duration }`.
Time-slot labels are in bijection with their indices `0..17` via
`findTimeIndex` / `timeSlots[i]`, so a day's schedule is modelled as a
function from slot index to `Option Placement`.  The store of all schedules
(`allSchedules`) maps a day key string to a day schedule, modelled as a
function from `String` to `Option ScheduleMap` (`none` = the key is absent).

Task ids in the source are `Date.now().toString()`; decimal rendering of
natural numbers is injective, so the id is modelled as the numeric
timestamp itself.
-/

namespace Scheduler

/-- The 18 hourly slot labels, `05:00` through `22:00`
(`Array.from({length: 18}, (_, i) => ...)` in the source). -/
def timeSlots : List String :=
  (List.range 18).map (fun i =>
    (if i + 5 < 10 then "0" else "") ++ toString (i + 5) ++ ":00")

/-- Number of time slots in a day. -/
def numSlots : Nat := timeSlots.length

/-- `AUTO_DELETE_DELAY = 5 * 60 * 1000` milliseconds. -/
def AUTO_DELETE_DELAY : Nat := 5 * 60 * 1000

/-- A task record `{ id, text, isCompleted, completedAt }`.
`completedAt` is a millisecond timestamp or `null`. -/
structure Task where
  id : Nat
  text : String
  isCompleted : Bool
  completedAt : Option Nat
deriving DecidableEq, Repr

/-- A placement `{ taskId, duration }` stored under its start slot. -/
structure Placement where
  taskId : Nat
  duration : Nat
deriving DecidableEq, Repr

/-- One day's schedule object, keyed by slot index. -/
def ScheduleMap : Type := Nat → Option Placement

/-- The `allSchedules` object: day key → day schedule (`none` = key absent). -/
def AllSchedules : Type := String → Option ScheduleMap

/-- The empty schedule object `{}`. -/
def emptySchedule : ScheduleMap := fun _ => none

/-- `scheduleMap[timeSlots[i]] = p` (object property write / overwrite). -/
def smInsert (m : ScheduleMap) (i : Nat) (p : Placement) : ScheduleMap :=
  fun j => if j = i then some p else m j

/-- `delete scheduleMap[timeSlots[i]]`. -/
def smErase (m : ScheduleMap) (i : Nat) : ScheduleMap :=
  fun j => if j = i then none else m j

/-- The loop `for (const key in currentDaySchedule) if (...taskId === taskId) delete ...`:
removes every placement of the given task from the day's map. -/
def clearTask (m : ScheduleMap) (taskId : Nat) : ScheduleMap :=
  fun j => if (m j).any (fun p => p.taskId = taskId) then none else m j

/-- The recursive `pushTasksDown` body.  `pushGo m s d k` models the
`for (let i = startIndex; i < startIndex + duration; i++)` loop of
`pushTasksDown(scheduleMap, s, d)` resumed at `i = s + k`:
a placement found at slot `i` is deleted and, when `timeSlots[i + d]`
exists, reinserted at `i + d` after recursively pushing with its own
duration there; otherwise it is dropped. -/
def pushGo (m : ScheduleMap) (s d k : Nat) : ScheduleMap :=
  if hk : k < d then
    if hi : s + k < numSlots then
      match m (s + k) with
      | some p =>
        if hn : s + k + d < numSlots then
          pushGo (smInsert (pushGo (smErase m (s + k)) (s + k + d) p.duration 0)
            (s + k + d) p) s d (k + 1)
        else
          pushGo (smErase m (s + k)) s d (k + 1)
      | none => pushGo m s d (k + 1)
    else pushGo m s d (k + 1)
  else m
termination_by (numSlots - s, d - k)
decreasing_by
  · apply Prod.Lex.left
    omega
  · apply Prod.Lex.right
    omega
  · apply Prod.Lex.right
    omega
  · apply Prod.Lex.right
    omega
  · apply Prod.Lex.right
    omega

/-- `pushTasksDown(scheduleMap, startIndex, duration)`. -/
def pushTasksDown (m : ScheduleMap) (startIndex duration : Nat) : ScheduleMap :=
  pushGo m startIndex duration 0

/-- `placeTask(startTime, taskId, duration)` restricted to the day's map:
clear existing instances of the task, push colliding tasks down, then write
`{ taskId, duration }` at the target slot. -/
def placeTask (m : ScheduleMap) (startTime : Nat) (taskId : Nat)
    (duration : Nat) : ScheduleMap :=
  smInsert (pushTasksDown (clearTask m taskId) startTime duration) startTime
    ⟨taskId, duration⟩

/-- `placeTask` at the `allSchedules` level: reads the day's map (or `{}`),
runs the placement algorithm and writes the result back under the day key. -/
def placeTaskAll (store : AllSchedules) (dayKey : String) (startTime : Nat)
    (taskId : Nat) (duration : Nat) : AllSchedules :=
  fun k =>
    if k = dayKey then
      some (placeTask ((store dayKey).getD emptySchedule) startTime taskId duration)
    else store k

/-- `removeTask(startTime)` generalised over the day key: copies the day's
map (or `{}`), deletes the entry at the slot and writes the map back under
the day key. -/
def removeTask (store : AllSchedules) (dayKey : String) (startTime : Nat) :
    AllSchedules :=
  fun k =>
    if k = dayKey then
      some (smErase ((store dayKey).getD emptySchedule) startTime)
    else store k

/-- `handleDrop(time, e)`: drops the dragged task onto a slot.  Returns the
new schedule store together with the new `draggedTask` state.  A completed
dragged task is rejected; otherwise the task is placed with duration 1. -/
def handleDrop (tasks : List Task) (store : AllSchedules) (dayKey : String)
    (draggedTask : Option Nat) (time : Nat) : AllSchedules × Option Nat :=
  match draggedTask with
  | none => (store, none)
  | some id =>
    match tasks.find? (fun t => t.id = id) with
    | some t =>
      if t.isCompleted then (store, none)
      else (placeTaskAll store dayKey time id 1, none)
    | none => (placeTaskAll store dayKey time id 1, none)

/-- `handleCheckboxChange(taskId, startTime)`: marks the task completed with
`completedAt = now` and removes its placement from the current day. -/
def handleCheckboxChange (tasks : List Task) (store : AllSchedules)
    (dayKey : String) (taskId : Nat) (startTime : Nat) (now : Nat) :
    List Task × AllSchedules :=
  (tasks.map (fun t =>
      if t.id = taskId then { t with isCompleted := true, completedAt := some now }
      else t),
   removeTask store dayKey startTime)

/-- JavaScript `String.prototype.trim()`: strips whitespace from both ends
(implemented on the character list so that it evaluates by `decide`). -/
def jsTrim (s : String) : String :=
  String.mk
    (((s.data.dropWhile Char.isWhitespace).reverse.dropWhile
      Char.isWhitespace).reverse)

/-- `addTask()`: appends `{ id: Date.now().toString(), text: trimmed,
isCompleted: false, completedAt: null }` when the trimmed text is non-empty
(a non-empty string is the only truthy outcome of `newTaskText.trim()`). -/
def addTask (tasks : List Task) (newTaskText : String) (now : Nat) : List Task :=
  if jsTrim newTaskText ≠ "" then
    tasks ++ [⟨now, jsTrim newTaskText, false, none⟩]
  else tasks

/-- JavaScript truthiness of `task.completedAt`: `null` and `0` are falsy. -/
def completedAtTruthy (t : Task) : Bool :=
  match t.completedAt with
  | some c => c != 0
  | none => false

/-- One run of the auto-delete interval callback: keeps exactly the tasks
failing `task.isCompleted && task.completedAt && (now - task.completedAt >
AUTO_DELETE_DELAY)`. -/
def sweepTasks (tasks : List Task) (now : Nat) : List Task :=
  tasks.filter (fun t =>
    !(t.isCompleted && completedAtTruthy t &&
      decide (now - (t.completedAt.getD 0) > AUTO_DELETE_DELAY)))

/-- The candidate duration of `handleMouseMove`:
`Math.min(Math.max(1, Math.round(startDuration + dy / SLOT_HEIGHT)),
timeSlots.length - startIndex)`.  The rounded pointer term is taken as an
integer input `rounded`. -/
def candidateDuration (s : Nat) (rounded : Int) : Nat :=
  min (max 1 rounded).toNat (numSlots - s)

/-- The schedule update of `handleMouseMove` (interactive resize) on the
day's map, for the placement anchored at slot `s`.  Returns `none` exactly
on the path where the source would throw (`existingTask.taskId` with
`existingTask === undefined`); every normal path returns the updated map. -/
def resizeTask (m : ScheduleMap) (s : Nat) (rounded : Int) : Option ScheduleMap :=
  if _h1 : ∀ i, i < s + candidateDuration s rounded → s ≤ i → i ≠ s → m i = none then
    if _h2 : (m s).map Placement.duration ≠ some (candidateDuration s rounded) then
      if _h3 : ∀ i, i < s + candidateDuration s rounded → s ≤ i →
          smErase m s i = none then
        match m s with
        | some p =>
          some (smInsert (smErase m s) s ⟨p.taskId, candidateDuration s rounded⟩)
        | none => none
      else
        some (fun j => if j = s then m s else smErase m s j)
    else some m
  else some m

/-- Durations are at least 1 and no placement extends past the last slot
(bounded over the valid slot indices). -/
def slotsLegal (m : ScheduleMap) : Prop :=
  ∀ i, i < numSlots → ∀ p, m i = some p → 1 ≤ p.duration ∧ i + p.duration ≤ numSlots

/-- Occupied ranges `[i, i + duration)` of distinct placements are pairwise
disjoint (bounded over the valid slot indices). -/
def schedDisjoint (m : ScheduleMap) : Prop :=
  ∀ i, i < numSlots → ∀ j, j < numSlots → ∀ p q,
    m i = some p → m j = some q → i ≠ j →
    i + p.duration ≤ j ∨ j + q.duration ≤ i

/-- The schedule-map invariant of the spec's data model. -/
def SchedInvariant (m : ScheduleMap) : Prop :=
  slotsLegal m ∧ schedDisjoint m

/-- Slot `slot` lies inside the occupied range of some placement of `m`. -/
def coversSlot (m : ScheduleMap) (slot : Nat) : Prop :=
  ∃ i, i < numSlots ∧ ∃ p, m i = some p ∧ i ≤ slot ∧ slot < i + p.duration

/-- The task occupies at most one start slot in the day's map. -/
def atMostOneTask (m : ScheduleMap) (u : Nat) : Prop :=
  ∀ i j p q, m i = some p → m j = some q →
    p.taskId = u → q.taskId = u → i = j

/-- The task appears nowhere in the day's map. -/
def taskAbsent (m : ScheduleMap) (u : Nat) : Prop :=
  ∀ j p, m j = some p → p.taskId ≠ u

/-- Every day map present in the schedule store satisfies the invariant. -/
def StoreInvariant (store : AllSchedules) : Prop :=
  ∀ k m, store k = some m → SchedInvariant m

theorem numSlots_eq : numSlots = 18 := rfl

theorem pushGo_done (m : ScheduleMap) (s d k : Nat) (hk : ¬ k < d) :
    pushGo m s d k = m := by
  rw [pushGo]
  simp [hk]

theorem pushGo_oob (m : ScheduleMap) (s d k : Nat) (hk : k < d)
    (hi : ¬ s + k < numSlots) : pushGo m s d k = pushGo m s d (k + 1) := by
  rw [pushGo]
  simp [hk, hi]

theorem pushGo_none (m : ScheduleMap) (s d k : Nat) (hk : k < d)
    (hi : s + k < numSlots) (hm : m (s + k) = none) :
    pushGo m s d k = pushGo m s d (k + 1) := by
  rw [pushGo]
  simp [hk, hi, hm]

theorem pushGo_found_fits (m : ScheduleMap) (s d k : Nat) (p : Placement)
    (hk : k < d) (hi : s + k < numSlots) (hm : m (s + k) = some p)
    (hn : s + k + d < numSlots) :
    pushGo m s d k =
      pushGo (smInsert (pushGo (smErase m (s + k)) (s + k + d) p.duration 0)
        (s + k + d) p) s d (k + 1) := by
  rw [pushGo]
  simp [hk, hi, hm, hn]

theorem pushGo_found_drop (m : ScheduleMap) (s d k : Nat) (p : Placement)
    (hk : k < d) (hi : s + k < numSlots) (hm : m (s + k) = some p)
    (hn : ¬ s + k + d < numSlots) :
    pushGo m s d k = pushGo (smErase m (s + k)) s d (k + 1) := by
  rw [pushGo]
  simp [hk, hi, hm, hn]

theorem pushGo_frame (m : ScheduleMap) (s d k : Nat) :
    ∀ j, j < s + k → pushGo m s d k j = m j := by
  induction m, s, d, k using pushGo.induct with
  | case1 m s d k hk hi p hm hn ih1 ih2 =>
    intro j hj
    rw [pushGo_found_fits m s d k p hk hi hm hn]
    rw [ih2 j (by omega)]
    have hj1 : j ≠ s + k + d := by omega
    have hj2 : j ≠ s + k := by omega
    simp only [smInsert, if_neg hj1]
    rw [ih1 j (by omega)]
    simp only [smErase, if_neg hj2]
  | case2 m s d k hk hi p hm hn ih =>
    intro j hj
    rw [pushGo_found_drop m s d k p hk hi hm hn]
    rw [ih j (by omega)]
    have hj2 : j ≠ s + k := by omega
    simp only [smErase, if_neg hj2]
  | case3 m s d k hk hi hm ih =>
    intro j hj
    rw [pushGo_none m s d k hk hi hm]
    exact ih j (by omega)
  | case4 m s d k hk hi ih =>
    intro j hj
    rw [pushGo_oob m s d k hk hi]
    exact ih j (by omega)
  | case5 m s d k hk =>
    intro j hj
    rw [pushGo_done m s d k hk]


theorem pushGo_scanned_none (m : ScheduleMap) (s d k : Nat) :
    ∀ j, s + k ≤ j → j < s + d → j < numSlots → pushGo m s d k j = none := by
  induction m, s, d, k using pushGo.induct with
  | case1 m s d k hk hi p hm hn ih1 ih2 =>
    intro j hj1 hj2 hj3
    rw [pushGo_found_fits m s d k p hk hi hm hn]
    rcases Nat.lt_or_ge j (s + (k + 1)) with hj4 | hj4
    · have hje : j = s + k := by omega
      subst hje
      rw [pushGo_frame _ s d (k + 1) _ (by omega)]
      have hj5 : s + k ≠ s + k + d := by omega
      simp only [smInsert, if_neg hj5]
      rw [pushGo_frame (smErase m (s + k)) (s + k + d) p.duration 0 (s + k) (by omega)]
      simp [smErase]
    · exact ih2 j hj4 hj2 hj3
  | case2 m s d k hk hi p hm hn ih =>
    intro j hj1 hj2 hj3
    rw [pushGo_found_drop m s d k p hk hi hm hn]
    rcases Nat.lt_or_ge j (s + (k + 1)) with hj4 | hj4
    · have hje : j = s + k := by omega
      subst hje
      rw [pushGo_frame _ s d (k + 1) _ (by omega)]
      simp [smErase]
    · exact ih j hj4 hj2 hj3
  | case3 m s d k hk hi hm ih =>
    intro j hj1 hj2 hj3
    rw [pushGo_none m s d k hk hi hm]
    rcases Nat.lt_or_ge j (s + (k + 1)) with hj4 | hj4
    · have hje : j = s + k := by omega
      subst hje
      rw [pushGo_frame _ s d (k + 1) _ (by omega)]
      exact hm
    · exact ih j hj4 hj2 hj3
  | case4 m s d k hk hi ih =>
    intro j hj1 hj2 hj3
    rw [pushGo_oob m s d k hk hi]
    rcases Nat.lt_or_ge j (s + (k + 1)) with hj4 | hj4
    · omega
    · exact ih j hj4 hj2 hj3
  | case5 m s d k hk =>
    intro j hj1 hj2 hj3
    omega

theorem pushGo_no_scan (m : ScheduleMap) (s d k : Nat)
    (h : ∀ j, s + k ≤ j → j < s + d → j < numSlots → m j = none) :
    pushGo m s d k = m := by
  induction m, s, d, k using pushGo.induct with
  | case1 m s d k hk hi p hm hn ih1 ih2 =>
    exact absurd hm (by rw [h (s + k) (by omega) (by omega) hi]; simp)
  | case2 m s d k hk hi p hm hn ih =>
    exact absurd hm (by rw [h (s + k) (by omega) (by omega) hi]; simp)
  | case3 m s d k hk hi hm ih =>
    rw [pushGo_none m s d k hk hi hm]
    exact ih (fun j hj1 hj2 hj3 => h j (by omega) hj2 hj3)
  | case4 m s d k hk hi ih =>
    rw [pushGo_oob m s d k hk hi]
    exact ih (fun j hj1 hj2 hj3 => h j (by omega) hj2 hj3)
  | case5 m s d k hk =>
    exact pushGo_done m s d k hk


theorem pushGo_taskAbsent (m : ScheduleMap) (s d k : Nat) (u : Nat)
    (h : taskAbsent m u) : taskAbsent (pushGo m s d k) u := by
  induction m, s, d, k using pushGo.induct with
  | case1 m s d k hk hi p hm hn ih1 ih2 =>
    rw [pushGo_found_fits m s d k p hk hi hm hn]
    apply ih2
    intro j q hj
    by_cases hje : j = s + k + d
    · subst hje
      simp only [smInsert, if_pos rfl] at hj
      cases hj
      exact h (s + k) p hm
    · simp only [smInsert, if_neg hje] at hj
      have h1 : taskAbsent (smErase m (s + k)) u := by
        intro j2 q2 hj2
        by_cases hje2 : j2 = s + k
        · subst hje2
          simp [smErase] at hj2
        · simp only [smErase, if_neg hje2] at hj2
          exact h j2 q2 hj2
      exact ih1 h1 j q hj
  | case2 m s d k hk hi p hm hn ih =>
    rw [pushGo_found_drop m s d k p hk hi hm hn]
    apply ih
    intro j q hj
    by_cases hje : j = s + k
    · subst hje
      simp [smErase] at hj
    · simp only [smErase, if_neg hje] at hj
      exact h j q hj
  | case3 m s d k hk hi hm ih =>
    rw [pushGo_none m s d k hk hi hm]
    exact ih h
  | case4 m s d k hk hi ih =>
    rw [pushGo_oob m s d k hk hi]
    exact ih h
  | case5 m s d k hk =>
    rw [pushGo_done m s d k hk]
    exact h

theorem smErase_atMostOne (m : ScheduleMap) (i : Nat) (u : Nat)
    (h : atMostOneTask m u) : atMostOneTask (smErase m i) u := by
  intro a b p q ha hb hp hq
  by_cases hai : a = i
  · subst hai
    simp [smErase] at ha
  · by_cases hbi : b = i
    · subst hbi
      simp [smErase] at hb
    · simp only [smErase, if_neg hai] at ha
      simp only [smErase, if_neg hbi] at hb
      exact h a b p q ha hb hp hq

theorem pushGo_atMostOne (m : ScheduleMap) (s d k : Nat) (u : Nat)
    (h : atMostOneTask m u) : atMostOneTask (pushGo m s d k) u := by
  induction m, s, d, k using pushGo.induct with
  | case1 m s d k hk hi p hm hn ih1 ih2 =>
    rw [pushGo_found_fits m s d k p hk hi hm hn]
    apply ih2
    by_cases hpu : p.taskId = u
    · -- the displaced placement is the unique occurrence of u; after the
      -- cascade u is absent, so reinserting p keeps at most one occurrence
      have habs : taskAbsent (smErase m (s + k)) u := by
        intro j q hj hqu
        by_cases hje : j = s + k
        · subst hje
          simp [smErase] at hj
        · simp only [smErase, if_neg hje] at hj
          exact hje (h j (s + k) q p hj hm hqu hpu)
      have habs2 : taskAbsent (pushGo (smErase m (s + k)) (s + k + d) p.duration 0) u :=
        pushGo_taskAbsent _ _ _ _ u habs
      intro a b q r ha hb hq hr
      by_cases hae : a = s + k + d
      · by_cases hbe : b = s + k + d
        · rw [hae, hbe]
        · simp only [smInsert, if_neg hbe] at hb
          exact absurd hr (habs2 b r hb)
      · simp only [smInsert, if_neg hae] at ha
        exact absurd hq (habs2 a q ha)
    · -- p is not u; the insert can only remove occurrences of u
      have h1 : atMostOneTask (pushGo (smErase m (s + k)) (s + k + d) p.duration 0) u :=
        ih1 (smErase_atMostOne m (s + k) u h)
      intro a b q r ha hb hq hr
      by_cases hae : a = s + k + d
      · subst hae
        simp only [smInsert, if_pos rfl] at ha
        cases ha
        exact absurd hq hpu
      · by_cases hbe : b = s + k + d
        · subst hbe
          simp only [smInsert, if_pos rfl] at hb
          cases hb
          exact absurd hr hpu
        · simp only [smInsert, if_neg hae] at ha
          simp only [smInsert, if_neg hbe] at hb
          exact h1 a b q r ha hb hq hr
  | case2 m s d k hk hi p hm hn ih =>
    rw [pushGo_found_drop m s d k p hk hi hm hn]
    exact ih (smErase_atMostOne m (s + k) u h)
  | case3 m s d k hk hi hm ih =>
    rw [pushGo_none m s d k hk hi hm]
    exact ih h
  | case4 m s d k hk hi ih =>
    rw [pushGo_oob m s d k hk hi]
    exact ih h
  | case5 m s d k hk =>
    rw [pushGo_done m s d k hk]
    exact h


theorem smErase_self (m : ScheduleMap) (i : Nat) : smErase m i i = none := by
  simp [smErase]

theorem smErase_other (m : ScheduleMap) (i j : Nat) (h : j ≠ i) :
    smErase m i j = m j := by
  simp [smErase, h]

theorem smInsert_self (m : ScheduleMap) (i : Nat) (p : Placement) :
    smInsert m i p i = some p := by
  simp [smInsert]

theorem smInsert_other (m : ScheduleMap) (i : Nat) (p : Placement) (j : Nat)
    (h : j ≠ i) : smInsert m i p j = m j := by
  simp [smInsert, h]

theorem pushGo_single (m : ScheduleMap) (s d k : Nat) :
    ∀ i p, s + k ≤ i → i < s + d → i < numSlots → m i = some p →
    (∀ j, j ≠ i → m j = none) →
    pushGo m s d k =
      (if i + d < numSlots then smInsert (smErase m i) (i + d) p
       else smErase m i) := by
  induction m, s, d, k using pushGo.induct with
  | case1 m s d k hk hi p0 hm hn ih1 ih2 =>
    intro i p hi1 hi2 hi3 hmi hsingle
    have hie : s + k = i := by
      by_contra hne
      rw [hsingle (s + k) hne] at hm
      cases hm
    have hpe : p0 = p := by
      rw [hie, hmi] at hm
      cases hm
      rfl
    subst hpe
    rw [pushGo_found_fits m s d k p0 hk hi hm hn]
    have herased : ∀ j, smErase m (s + k) j = none := by
      intro j
      by_cases hje : j = s + k
      · subst hje
        exact smErase_self m (s + k)
      · rw [smErase_other m (s + k) j hje]
        rw [hie] at hje
        exact hsingle j hje
    rw [pushGo_no_scan (smErase m (s + k)) (s + k + d) p0.duration 0
      (fun j hj1 hj2 hj3 => herased j)]
    rw [pushGo_no_scan]
    · rw [hie]
      rw [if_pos (by omega : i + d < numSlots)]
    · intro j hj1 hj2 hj3
      have hjne : j ≠ s + k + d := by omega
      rw [smInsert_other _ _ _ _ hjne]
      exact herased j
  | case2 m s d k hk hi p0 hm hn ih =>
    intro i p hi1 hi2 hi3 hmi hsingle
    have hie : s + k = i := by
      by_contra hne
      rw [hsingle (s + k) hne] at hm
      cases hm
    have hpe : p0 = p := by
      rw [hie, hmi] at hm
      cases hm
      rfl
    subst hpe
    rw [pushGo_found_drop m s d k p0 hk hi hm hn]
    have herased : ∀ j, smErase m (s + k) j = none := by
      intro j
      by_cases hje : j = s + k
      · subst hje
        exact smErase_self m (s + k)
      · rw [smErase_other m (s + k) j hje]
        rw [hie] at hje
        exact hsingle j hje
    rw [pushGo_no_scan (smErase m (s + k)) s d (k + 1)
      (fun j hj1 hj2 hj3 => herased j)]
    rw [hie]
    rw [if_neg (by omega : ¬ i + d < numSlots)]
  | case3 m s d k hk hi hm ih =>
    intro i p hi1 hi2 hi3 hmi hsingle
    rw [pushGo_none m s d k hk hi hm]
    have hine : i ≠ s + k := by
      intro he
      rw [he, hm] at hmi
      cases hmi
    exact ih i p (by omega) hi2 hi3 hmi hsingle
  | case4 m s d k hk hi ih =>
    intro i p hi1 hi2 hi3 hmi hsingle
    omega
  | case5 m s d k hk =>
    intro i p hi1 hi2 hi3 hmi hsingle
    omega


theorem pushGo_double (m : ScheduleMap) (s d k : Nat) :
    ∀ i p q, s + k ≤ i → i < s + d → i < numSlots → i + d < numSlots →
      1 ≤ p.duration → m i = some p → m (i + d) = some q →
      (∀ j, j ≠ i → j ≠ i + d → m j = none) →
      ∀ j, pushGo m s d k j =
        if j = i + d then some p
        else if j = i + d + p.duration ∧ i + d + p.duration < numSlots then
          some q
        else none := by
  induction m, s, d, k using pushGo.induct with
  | case1 m s d k hk hi p0 hm hn ih1 ih2 =>
    intro i p q hki hiD hilt hidlt hdur hmi hmq hrest j
    have hie : s + k = i := by
      by_contra hne
      by_cases hne2 : s + k = i + d
      · omega
      · rw [hrest (s + k) hne hne2] at hm
        cases hm
    have hpe : p0 = p := by
      rw [hie, hmi] at hm
      cases hm
      rfl
    subst hpe
    rw [← hie] at hidlt hmq ⊢
    replace hrest : ∀ j2, j2 ≠ s + k → j2 ≠ s + k + d → m j2 = none := by
      intro j2 h1 h2
      exact hrest j2 (by omega) (by omega)
    rw [pushGo_found_fits m s d k p0 hk hi hm hn]
    have hin : ∀ j2, j2 ≠ s + k + d → smErase m (s + k) j2 = none := by
      intro j2 hj2
      by_cases hj2i : j2 = s + k
      · subst hj2i
        exact smErase_self _ _
      · rw [smErase_other _ _ _ hj2i]
        exact hrest j2 hj2i hj2
    have hinq : smErase m (s + k) (s + k + d) = some q := by
      rw [smErase_other _ _ _ (by omega)]
      exact hmq
    have hcasc := pushGo_single (smErase m (s + k)) (s + k + d) p0.duration 0
      (s + k + d) q (by omega) (by omega) (by omega) hinq hin
    rw [pushGo_no_scan]
    · by_cases hjid : j = s + k + d
      · subst hjid
        rw [smInsert_self, if_pos rfl]
      · rw [smInsert_other _ _ _ _ hjid, hcasc, if_neg hjid]
        by_cases hfits : s + k + d + p0.duration < numSlots
        · rw [if_pos hfits]
          by_cases hjq : j = s + k + d + p0.duration
          · subst hjq
            rw [smInsert_self, if_pos ⟨rfl, hfits⟩]
          · rw [smInsert_other _ _ _ _ hjq, if_neg (fun h => hjq h.1)]
            rw [smErase_other _ _ _ hjid]
            exact hin j hjid
        · rw [if_neg hfits, if_neg (fun h => hfits h.2)]
          rw [smErase_other _ _ _ hjid]
          exact hin j hjid
    · intro j2 hj1 hj2 hj3
      rw [smInsert_other _ _ _ _ (by omega : j2 ≠ s + k + d), hcasc]
      by_cases hfits : s + k + d + p0.duration < numSlots
      · rw [if_pos hfits, smInsert_other _ _ _ _ (by omega)]
        rw [smErase_other _ _ _ (by omega)]
        exact hin j2 (by omega)
      · rw [if_neg hfits, smErase_other _ _ _ (by omega)]
        exact hin j2 (by omega)
  | case2 m s d k hk hi p0 hm hn ih =>
    intro i p q hki hiD hilt hidlt hdur hmi hmq hrest j
    exfalso
    have hie : s + k = i := by
      by_contra hne
      by_cases hne2 : s + k = i + d
      · omega
      · rw [hrest (s + k) hne hne2] at hm
        cases hm
    omega
  | case3 m s d k hk hi hm ih =>
    intro i p q hki hiD hilt hidlt hdur hmi hmq hrest j
    rw [pushGo_none m s d k hk hi hm]
    have hki2 : s + k ≠ i := by
      intro he
      rw [he, hmi] at hm
      cases hm
    exact ih i p q (by omega) hiD hilt hidlt hdur hmi hmq hrest j
  | case4 m s d k hk hi ih =>
    intro i p q hki hiD hilt hidlt hdur hmi hmq hrest j
    omega
  | case5 m s d k hk =>
    intro i p q hki hiD hilt hidlt hdur hmi hmq hrest j
    omega

/-- A concrete day map holding one placement: task 1 at slot 3 for 5 slots
(occupying `[3, 8)`). -/
def mA : ScheduleMap := fun j => if j = 3 then some ⟨1, 5⟩ else none

theorem mA_invariant : SchedInvariant mA := by
  constructor
  · intro i hi p hp
    by_cases h3 : i = 3
    · subst h3
      simp only [mA, if_pos rfl] at hp
      cases hp
      decide
    · simp [mA, h3] at hp
  · intro i hi j hj p q hp hq hne
    by_cases hi3 : i = 3
    · subst hi3
      have hj3 : j ≠ 3 := fun h => hne h.symm
      simp [mA, hj3] at hq
    · simp [mA, hi3] at hp

theorem mA_not_covers_0 : ¬ coversSlot mA 0 := by
  rintro ⟨i, hi, p, hp, h1, h2⟩
  have hi0 : i = 0 := by omega
  subst hi0
  simp [mA] at hp

/-- Claim C1 counterexample: with the invariant-satisfying map holding task 1
at slot 3 for 5 slots, `place(slot 5, task 2, duration 1)` leaves task 1's
placement at slot 3 untouched, and its occupied range `[3, 8)` intersects the
target range `[5, 6)`: the claim's "no other placement's occupied range
intersects `[S, S+D)`" is false, because `pushTasksDown` only displaces
placements whose start slot lies inside the target range. -/
theorem c1_place_counterexample :
    SchedInvariant mA ∧
    placeTask mA 5 2 1 5 = some ⟨2, 1⟩ ∧
    placeTask mA 5 2 1 3 = some ⟨1, 5⟩ ∧
    3 ≤ 5 ∧ 5 < 3 + 5 := by
  refine ⟨mA_invariant, ?_, ?_, by omega, by omega⟩
  · exact smInsert_self _ _ _
  · unfold placeTask pushTasksDown
    rw [smInsert_other _ _ _ _ (by omega)]
    rw [pushGo_frame _ 5 1 0 3 (by omega)]
    simp [clearTask, mA]

/-- Claim C1 (amended): for any day and any current schedule map, after
`place(slot=S, task=T, duration=D)` the resulting map contains a placement
for T starting exactly at S with duration D, and no other placement STARTS
within `[S, S+D)`; a placement starting before S whose occupied range
reaches into `[S, S+D)` may however remain (see the counterexample), since
the engine only displaces placements whose start slot lies in the target
range. -/
theorem c1_place_occupies_target (m : ScheduleMap) (S T D : Nat) :
    placeTask m S T D S = some ⟨T, D⟩ ∧
    ∀ j, S < j → j < S + D → j < numSlots → placeTask m S T D j = none := by
  constructor
  · exact smInsert_self _ _ _
  · intro j h1 h2 h3
    unfold placeTask pushTasksDown
    rw [smInsert_other _ _ _ _ (by omega)]
    exact pushGo_scanned_none _ S D 0 j (by omega) h2 h3

theorem c1_place_occupies_target_witness :
    placeTask mA 5 2 3 5 = some ⟨2, 3⟩ ∧ placeTask mA 5 2 3 6 = none := by
  exact ⟨(c1_place_occupies_target mA 5 2 3).1,
    (c1_place_occupies_target mA 5 2 3).2 6 (by omega) (by omega) (by decide)⟩


/-- A pointwise sub-map inherits the schedule invariant. -/
theorem submap_invariant (m1 m : ScheduleMap)
    (hsub : ∀ j p, m1 j = some p → m j = some p) (hm : SchedInvariant m) :
    SchedInvariant m1 := by
  constructor
  · intro i hi p hp
    exact hm.1 i hi p (hsub i p hp)
  · intro i hi j hj p q hp hq hne
    exact hm.2 i hi j hj p q (hsub i p hp) (hsub j q hq) hne

theorem smErase_submap (m : ScheduleMap) (i : Nat) :
    ∀ j p, smErase m i j = some p → m j = some p := by
  intro j p hj
  by_cases hje : j = i
  · subst hje
    rw [smErase_self] at hj
    cases hj
  · rw [smErase_other m i j hje] at hj
    exact hj

theorem clearTask_submap (m : ScheduleMap) (u : Nat) :
    ∀ j p, clearTask m u j = some p → m j = some p := by
  intro j p hj
  unfold clearTask at hj
  split at hj
  · cases hj
  · exact hj

theorem candidateDuration_pos (s : Nat) (rounded : Int) (hs : s < numSlots) :
    1 ≤ candidateDuration s rounded := by
  unfold candidateDuration
  refine Nat.le_min.mpr ⟨?_, by omega⟩
  have h1 : (1 : Int) ≤ max 1 rounded := le_max_left 1 rounded
  omega

theorem candidateDuration_bound (s : Nat) (rounded : Int) :
    candidateDuration s rounded ≤ numSlots - s :=
  Nat.min_le_right _ _

/-- Invariant preservation for the committing branch of the resize. -/
theorem resize_commit_invariant (m : ScheduleMap) (s cand : Nat) (p : Placement)
    (hm : SchedInvariant m) (hs : s < numSlots) (hp : m s = some p)
    (hcand1 : 1 ≤ cand) (hcand2 : s + cand ≤ numSlots)
    (hfree : ∀ i, i < s + cand → s ≤ i → smErase m s i = none) :
    SchedInvariant (smInsert (smErase m s) s ⟨p.taskId, cand⟩) := by
  constructor
  · intro i hi q hq
    by_cases his : i = s
    · subst his
      rw [smInsert_self] at hq
      injection hq with hq2
      subst hq2
      dsimp only
      omega
    · rw [smInsert_other _ _ _ _ his] at hq
      exact hm.1 i hi q (smErase_submap m s i q hq)
  · intro i hi j hj q r2 hq hr2 hne
    by_cases his : i = s
    · subst his
      rw [smInsert_self] at hq
      injection hq with hq2
      subst hq2
      rw [smInsert_other _ _ _ _ (fun h => hne h.symm)] at hr2
      have hmr2 : m j = some r2 := smErase_submap m _ j r2 hr2
      dsimp only
      rcases Nat.lt_or_ge j i with hji | hji
      · right
        rcases hm.2 i hi j hj p r2 hp hmr2 hne with hd | hd
        · omega
        · omega
      · left
        by_cases hjc : j < i + cand
        · exact absurd hr2 (by rw [hfree j hjc hji]; simp)
        · omega
    · by_cases hjs : j = s
      · subst hjs
        rw [smInsert_self] at hr2
        injection hr2 with hr3
        subst hr3
        rw [smInsert_other _ _ _ _ his] at hq
        have hmq : m i = some q := smErase_submap m _ i q hq
        dsimp only
        rcases Nat.lt_or_ge i j with hij | hij
        · left
          rcases hm.2 i hi j hj q p hmq hp his with hd | hd
          · omega
          · omega
        · right
          by_cases hic : i < j + cand
          · exact absurd hq (by rw [hfree i hic hij]; simp)
          · omega
      · rw [smInsert_other _ _ _ _ his] at hq
        rw [smInsert_other _ _ _ _ hjs] at hr2
        exact hm.2 i hi j hj q r2 (smErase_submap m s i q hq)
          (smErase_submap m s j r2 hr2) hne

theorem emptySchedule_invariant : SchedInvariant emptySchedule := by
  constructor
  · intro i hi p hp
    simp [emptySchedule] at hp
  · intro i hi j hj p q hp hq hne
    simp [emptySchedule] at hp

theorem removeTask_storeInvariant (store : AllSchedules)
    (h : StoreInvariant store) (dayKey : String) (slot : Nat) :
    StoreInvariant (removeTask store dayKey slot) := by
  intro k m0 hk
  simp only [removeTask] at hk
  by_cases hkd : k = dayKey
  · rw [if_pos hkd] at hk
    injection hk with hk2
    rw [← hk2]
    apply submap_invariant _ _ (smErase_submap _ slot)
    rcases hsd : store dayKey with _ | m1
    · exact emptySchedule_invariant
    · exact h dayKey m1 hsd
  · rw [if_neg hkd] at hk
    exact h k m0 hk

/-- Claim C2 counterexample: `place` does not preserve the invariant.
Starting from the invariant-satisfying map holding task 1 at slot 3 for 5
slots, `place(slot 5, task 2, duration 1)` produces a map in which the
occupied ranges `[3, 8)` and `[5, 6)` of two distinct placements overlap. -/
theorem c2_invariant_counterexample :
    SchedInvariant mA ∧ ¬ SchedInvariant (placeTask mA 5 2 1) := by
  refine ⟨mA_invariant, fun h => ?_⟩
  have h3 : placeTask mA 5 2 1 3 = some ⟨1, 5⟩ := by
    unfold placeTask pushTasksDown
    rw [smInsert_other _ _ _ _ (by omega)]
    rw [pushGo_frame _ 5 1 0 3 (by omega)]
    simp [clearTask, mA]
  have h5 : placeTask mA 5 2 1 5 = some ⟨2, 1⟩ := smInsert_self _ _ _
  have hd := h.2 3 (by decide) 5 (by decide) ⟨1, 5⟩ ⟨2, 1⟩ h3 h5 (by omega)
  exact absurd hd (by decide)

/-- Claim C2 (amended): the operations on a day's schedule map preserve
the invariant that occupied ranges of the day's placements are pairwise
disjoint and never extend past the last of the 18 time slots — with one
exception forced by the counterexample.  In detail: the single-entry
delete on a day's map (the schedule effect shared by `removePlacement`
and checkbox-completion), every committed `resize`, the store-level
`removeTask`, and the store-level schedule effect of
`handleCheckboxChange` all preserve it; `place` preserves it when invoked
the way the drop handler invokes it — with duration 1 on a valid slot not
covered by any existing placement — but `place` on a covered slot can
break disjointness (see the counterexample). -/
theorem c2_invariant_preservation (m : ScheduleMap) (hm : SchedInvariant m) :
    (∀ s, SchedInvariant (smErase m s)) ∧
    (∀ s rounded m2, s < numSlots → resizeTask m s rounded = some m2 →
      SchedInvariant m2) ∧
    (∀ S T, S < numSlots → ¬ coversSlot m S →
      SchedInvariant (placeTask m S T 1)) ∧
    (∀ store, StoreInvariant store → ∀ dayKey slot,
      StoreInvariant (removeTask store dayKey slot)) ∧
    (∀ store tasks dayKey taskId slot now, StoreInvariant store →
      StoreInvariant (handleCheckboxChange tasks store dayKey taskId slot
        now).2) := by
  refine ⟨?_, ?_, ?_, ?_, ?_⟩
  · intro s
    exact submap_invariant _ m (smErase_submap m s) hm
  · intro s rounded m2 hs hr
    unfold resizeTask at hr
    split at hr
    · split at hr
      · split at hr
        · rcases hms : m s with _ | p
          · rw [hms] at hr
            cases hr
          · rw [hms] at hr
            injection hr with hr2
            rw [hr2.symm]
            rename_i hfree
            have hb := candidateDuration_bound s rounded
            exact resize_commit_invariant m s (candidateDuration s rounded) p hm hs
              hms (candidateDuration_pos s rounded hs) (by omega) hfree
        · injection hr with hr2
          rw [hr2.symm]
          have he : (fun j => if j = s then m s else smErase m s j) = m := by
            funext j
            by_cases hjs : j = s
            · subst hjs
              simp
            · rw [if_neg hjs, smErase_other m s j hjs]
          rw [he]
          exact hm
      · injection hr with hr2
        rw [hr2.symm]
        exact hm
    · injection hr with hr2
      rw [hr2.symm]
      exact hm
  · intro S T hS hcov
    have hclear : ∀ j, S ≤ j → j < S + 1 → j < numSlots →
        clearTask m T j = none := by
      intro j h1 h2 h3
      have hjS : j = S := by omega
      subst hjS
      rcases hc : clearTask m T j with _ | p
      · rfl
      · exfalso
        have hmj : m j = some p := clearTask_submap m T j p hc
        have hdur := (hm.1 j h3 p hmj).1
        exact hcov ⟨j, h3, p, hmj, le_refl j, by omega⟩
    unfold placeTask pushTasksDown
    rw [pushGo_no_scan _ _ _ _ (fun j h1 h2 h3 => hclear j (by omega) h2 h3)]
    constructor
    · intro i hi q hq
      by_cases his : i = S
      · subst his
        rw [smInsert_self] at hq
        injection hq with hq2
        subst hq2
        dsimp only
        omega
      · rw [smInsert_other _ _ _ _ his] at hq
        exact hm.1 i hi q (clearTask_submap m T i q hq)
    · intro i hi j hj q r2 hq hr2 hne
      by_cases his : i = S
      · subst his
        rw [smInsert_self] at hq
        injection hq with hq2
        subst hq2
        rw [smInsert_other _ _ _ _ (fun h => hne h.symm)] at hr2
        have hmr2 : m j = some r2 := clearTask_submap m T j r2 hr2
        dsimp only
        by_cases hcj : j ≤ i ∧ i < j + r2.duration
        · exact absurd ⟨j, hj, r2, hmr2, hcj.1, hcj.2⟩ hcov
        · rcases Nat.lt_or_ge i j with hij | hij
          · left
            omega
          · right
            omega
      · by_cases hjs : j = S
        · subst hjs
          rw [smInsert_self] at hr2
          injection hr2 with hr3
          subst hr3
          rw [smInsert_other _ _ _ _ his] at hq
          have hmq : m i = some q := clearTask_submap m T i q hq
          dsimp only
          by_cases hci : i ≤ j ∧ j < i + q.duration
          · exact absurd ⟨i, hi, q, hmq, hci.1, hci.2⟩ hcov
          · rcases Nat.lt_or_ge j i with hji | hji
            · right
              omega
            · left
              omega
        · rw [smInsert_other _ _ _ _ his] at hq
          rw [smInsert_other _ _ _ _ hjs] at hr2
          exact hm.2 i hi j hj q r2 (clearTask_submap m T i q hq)
            (clearTask_submap m T j r2 hr2) hne
  · intro store hstore dayKey slot
    exact removeTask_storeInvariant store hstore dayKey slot
  · intro store tasks dayKey taskId slot now hstore
    exact removeTask_storeInvariant store hstore dayKey slot

theorem c2_invariant_preservation_witness :
    SchedInvariant (smErase mA 3) ∧ SchedInvariant (placeTask mA 0 7 1) ∧
    StoreInvariant (removeTask (fun _ => none) "2025-03-07" 4) := by
  refine ⟨(c2_invariant_preservation mA mA_invariant).1 3,
    (c2_invariant_preservation mA mA_invariant).2.2.1 0 7 (by decide)
      mA_not_covers_0,
    (c2_invariant_preservation mA mA_invariant).2.2.2.1 (fun _ => none)
      (by intro k m0 h; cases h) "2025-03-07" 4⟩


/-- After clearing, the placed task is absent. -/
theorem clearTask_absent (m : ScheduleMap) (u : Nat) :
    taskAbsent (clearTask m u) u := by
  intro j p hj hpu
  unfold clearTask at hj
  split at hj
  · cases hj
  · rename_i hany
    exact hany (by rw [hj]; simp [Option.any, hpu])

/-- A concrete day map holding one placement: task 1 at slot 4 for 2 slots. -/
def mB : ScheduleMap := fun j => if j = 4 then some ⟨1, 2⟩ else none

/-- Claim C3: when `place(S, T, D)` targets a range containing an existing
placement — a placement of another task starting at slot `i` with
`S ≤ i < S + D` — that placement is removed and reinserted starting at its
original start index plus the displacing duration `D`, and the same
displacement rule is applied recursively at the new position: an occupant
`q` of the new slot `i + D` is in turn removed and reinserted at its own
start plus the recursion's displacing duration (the duration of the
displaced placement `p`), i.e. at `i + D + p.duration`, or is removed from
the map entirely when that index has no time slot; likewise the directly
displaced placement is removed from the map entirely when `i + D` has no
time slot.  No error is raised in any case: `placeTask` is total. -/
theorem c3_displacement (m : ScheduleMap) (S T D i : Nat) (p : Placement)
    (hSi : S ≤ i) (hiD : i < S + D) (hilt : i < numSlots)
    (hp : m i = some p) (hpT : p.taskId ≠ T) :
    (∀ q, i + D < numSlots → m (i + D) = some q → q.taskId ≠ T →
      q.taskId ≠ p.taskId → 1 ≤ p.duration →
      (∀ j, j ≠ i → j ≠ i + D → m j = none) →
      placeTask m S T D S = some ⟨T, D⟩ ∧
      placeTask m S T D (i + D) = some p ∧
      (i + D + p.duration < numSlots →
        placeTask m S T D (i + D + p.duration) = some q) ∧
      (numSlots ≤ i + D + p.duration →
        ∀ j r, placeTask m S T D j = some r → r.taskId ≠ q.taskId)) ∧
    ((∀ j, j ≠ i → m j = none) → i + D < numSlots →
      placeTask m S T D S = some ⟨T, D⟩ ∧
      placeTask m S T D (i + D) = some p ∧
      ∀ j, j ≠ i + D → j ≠ S → placeTask m S T D j = none) ∧
    ((∀ j, j ≠ i → m j = none) → numSlots ≤ i + D →
      placeTask m S T D S = some ⟨T, D⟩ ∧
      ∀ j r, placeTask m S T D j = some r → r.taskId ≠ p.taskId) := by
  have hc1 : clearTask m T i = some p := by
    unfold clearTask
    rw [hp]
    simp [Option.any, hpT]
  refine ⟨?_, ?_, ?_⟩
  · intro q hlt hq hqT hqp hdur hrest
    have hcq : clearTask m T (i + D) = some q := by
      unfold clearTask
      rw [hq]
      simp [Option.any, hqT]
    have hcr : ∀ j, j ≠ i → j ≠ i + D → clearTask m T j = none := by
      intro j h1 h2
      unfold clearTask
      rw [hrest j h1 h2]
      simp [Option.any]
    have hpt := pushGo_double (clearTask m T) S D 0 i p q (by omega) hiD hilt
      hlt hdur hc1 hcq hcr
    unfold placeTask pushTasksDown
    refine ⟨smInsert_self _ _ _, ?_, ?_, ?_⟩
    · rw [smInsert_other _ _ _ _ (by omega : i + D ≠ S), hpt (i + D),
        if_pos rfl]
    · intro hfits
      rw [smInsert_other _ _ _ _ (by omega : i + D + p.duration ≠ S),
        hpt (i + D + p.duration), if_neg (by omega), if_pos ⟨rfl, hfits⟩]
    · intro hge j r hjr
      by_cases hjS : j = S
      · subst hjS
        rw [smInsert_self] at hjr
        injection hjr with h2
        subst h2
        dsimp only
        exact fun h => hqT h.symm
      · rw [smInsert_other _ _ _ _ hjS, hpt j] at hjr
        by_cases hjid : j = i + D
        · rw [if_pos hjid] at hjr
          injection hjr with h2
          subst h2
          exact fun h => hqp h.symm
        · rw [if_neg hjid, if_neg (fun h => absurd h.2 (by omega))] at hjr
          cases hjr
  · intro hrest hlt
    have hc2 : ∀ j, j ≠ i → clearTask m T j = none := by
      intro j hj
      unfold clearTask
      rw [hrest j hj]
      simp [Option.any]
    have hpush := pushGo_single (clearTask m T) S D 0 i p (by omega) hiD hilt
      hc1 hc2
    rw [if_pos hlt] at hpush
    unfold placeTask pushTasksDown
    rw [hpush]
    refine ⟨smInsert_self _ _ _, ?_, ?_⟩
    · rw [smInsert_other _ _ _ _ (by omega : i + D ≠ S)]
      exact smInsert_self _ _ _
    · intro j hj1 hj2
      rw [smInsert_other _ _ _ _ hj2, smInsert_other _ _ _ _ hj1]
      by_cases hji : j = i
      · subst hji
        exact smErase_self _ _
      · rw [smErase_other _ _ _ hji]
        exact hc2 j hji
  · intro hrest hge
    have hc2 : ∀ j, j ≠ i → clearTask m T j = none := by
      intro j hj
      unfold clearTask
      rw [hrest j hj]
      simp [Option.any]
    have hpush := pushGo_single (clearTask m T) S D 0 i p (by omega) hiD hilt
      hc1 hc2
    rw [if_neg (by omega)] at hpush
    unfold placeTask pushTasksDown
    rw [hpush]
    refine ⟨smInsert_self _ _ _, ?_⟩
    intro j r hj
    by_cases hjS : j = S
    · subst hjS
      rw [smInsert_self] at hj
      injection hj with hj2
      subst hj2
      exact fun h => hpT h.symm
    · rw [smInsert_other _ _ _ _ hjS] at hj
      by_cases hji : j = i
      · subst hji
        rw [smErase_self] at hj
        cases hj
      · rw [smErase_other _ _ _ hji] at hj
        rw [hc2 j hji] at hj
        cases hj

/-- A concrete day map holding two placements: task 1 at slot 2 for 2
slots and task 2 at slot 6 for 3 slots. -/
def mC : ScheduleMap :=
  fun j => if j = 2 then some ⟨1, 2⟩ else if j = 6 then some ⟨2, 3⟩ else none

theorem c3_displacement_witness :
    placeTask mC 1 9 4 1 = some ⟨9, 4⟩ ∧
    placeTask mC 1 9 4 6 = some ⟨1, 2⟩ ∧
    placeTask mC 1 9 4 8 = some ⟨2, 3⟩ := by
  have h := (c3_displacement mC 1 9 4 2 ⟨1, 2⟩ (by omega) (by omega)
    (by decide) (by decide) (by decide)).1 ⟨2, 3⟩ (by decide) (by decide)
    (by decide) (by decide) (by decide) (by intro j h1 h2; simp [mC, h1, h2])
  exact ⟨h.1, h.2.1, h.2.2.1 (by decide)⟩

/-- Any sub-map preserves "at most one occurrence" of a task. -/
theorem submap_atMostOne (m1 m : ScheduleMap) (u : Nat)
    (hsub : ∀ j p, m1 j = some p → m j = some p) (h : atMostOneTask m u) :
    atMostOneTask m1 u := by
  intro a b p q ha hb hp hq
  exact h a b p q (hsub a p ha) (hsub b q hb) hp hq

/-- Claim C4: after `place(S1, T, d1)` followed by `place(S2, T, d2)` the
task T has exactly one placement in the day's map, at S2; and in general
`place` preserves "a given taskId appears in at most one placement per
day". -/
theorem c4_at_most_one_placement (m : ScheduleMap) (T S1 S2 d1 d2 : Nat)
    (_hne : S1 ≠ S2) :
    (placeTask (placeTask m S1 T d1) S2 T d2 S2 = some ⟨T, d2⟩ ∧
     ∀ j p, placeTask (placeTask m S1 T d1) S2 T d2 j = some p →
       p.taskId = T → j = S2) ∧
    (∀ u S T2 D, atMostOneTask m u → atMostOneTask (placeTask m S T2 D) u) := by
  constructor
  · constructor
    · exact smInsert_self _ _ _
    · intro j p hj hpT
      by_cases hjS : j = S2
      · exact hjS
      · exfalso
        unfold placeTask pushTasksDown at hj
        rw [smInsert_other _ _ _ _ hjS] at hj
        have habs : taskAbsent
            (pushGo (clearTask (placeTask m S1 T d1) T) S2 d2 0) T :=
          pushGo_taskAbsent _ _ _ _ T (clearTask_absent _ T)
        exact habs j p hj hpT
  · intro u S T2 D hu
    unfold placeTask pushTasksDown
    by_cases huT : u = T2
    · subst huT
      have habs : taskAbsent (pushGo (clearTask m u) S D 0) u :=
        pushGo_taskAbsent _ _ _ _ u (clearTask_absent m u)
      intro a b p q ha hb hp hq
      by_cases haS : a = S
      · by_cases hbS : b = S
        · rw [haS, hbS]
        · rw [smInsert_other _ _ _ _ hbS] at hb
          exact absurd hq (habs b q hb)
      · rw [smInsert_other _ _ _ _ haS] at ha
        exact absurd hp (habs a p ha)
    · have h1 : atMostOneTask (pushGo (clearTask m T2) S D 0) u :=
        pushGo_atMostOne _ _ _ _ u
          (submap_atMostOne _ m u (clearTask_submap m T2) hu)
      intro a b p q ha hb hp hq
      by_cases haS : a = S
      · subst haS
        rw [smInsert_self] at ha
        injection ha with ha2
        subst ha2
        exact absurd hp (by dsimp only; exact fun h => huT h.symm)
      · by_cases hbS : b = S
        · subst hbS
          rw [smInsert_self] at hb
          injection hb with hb2
          subst hb2
          exact absurd hq (by dsimp only; exact fun h => huT h.symm)
        · rw [smInsert_other _ _ _ _ haS] at ha
          rw [smInsert_other _ _ _ _ hbS] at hb
          exact h1 a b p q ha hb hp hq

theorem c4_at_most_one_placement_witness :
    placeTask (placeTask mA 2 7 1) 4 7 1 4 = some ⟨7, 1⟩ :=
  (c4_at_most_one_placement mA 7 2 4 1 1 (by omega)).1.1


/-- Claim C5: for every resize attempt on an existing placement of an
invariant-satisfying day map, the committed map contains no collision
between the resized placement and any other placement; and if the
candidate range would collide with another placement, the resize is
rejected and the day's map is unchanged. -/
theorem c5_resize_no_collision (m : ScheduleMap) (s : Nat) (rounded : Int)
    (p : Placement) (m2 : ScheduleMap) (hm : SchedInvariant m)
    (hs : s < numSlots) (hp : m s = some p)
    (hr : resizeTask m s rounded = some m2) :
    (∃ q, m2 s = some q ∧ q.taskId = p.taskId ∧
      ∀ j r2, m2 j = some r2 → j < numSlots → j ≠ s →
        j + r2.duration ≤ s ∨ s + q.duration ≤ j) ∧
    ((∃ j, j < numSlots ∧ j ≠ s ∧ ∃ r2, m j = some r2 ∧
        j < s + candidateDuration s rounded ∧ s < j + r2.duration) →
      m2 = m) := by
  have hunch : m2 = m →
      (∃ q, m2 s = some q ∧ q.taskId = p.taskId ∧
        ∀ j r2, m2 j = some r2 → j < numSlots → j ≠ s →
          j + r2.duration ≤ s ∨ s + q.duration ≤ j) := by
    intro he
    subst he
    refine ⟨p, hp, rfl, ?_⟩
    intro j r2 hj hjlt hjs
    rcases hm.2 j hjlt s hs r2 p hj hp hjs with hd | hd
    · left
      exact hd
    · right
      omega
  unfold resizeTask at hr
  split at hr
  · split at hr
    · split at hr
      · rename_i hcanResize hdur hfree
        rcases hms : m s with _ | p0
        · rw [hms] at hp
          cases hp
        · rw [hms] at hr
          injection hr with hr2
          rw [hms] at hp
          injection hp with hp2
          subst hp2
          constructor
          · refine ⟨⟨p0.taskId, candidateDuration s rounded⟩, ?_, rfl, ?_⟩
            · rw [← hr2]
              exact smInsert_self _ _ _
            · intro j r2 hj hjlt hjs
              rw [← hr2] at hj
              rw [smInsert_other _ _ _ _ hjs] at hj
              have hmr2 : m j = some r2 := smErase_submap m s j r2 hj
              dsimp only
              rcases Nat.lt_or_ge j s with hji | hji
              · left
                rcases hm.2 j hjlt s hs r2 p0 hmr2 hms hjs with hd | hd
                · exact hd
                · omega
              · right
                by_cases hjc : j < s + candidateDuration s rounded
                · exact absurd hj (by rw [hfree j hjc hji]; simp)
                · omega
          · rintro ⟨j, hjlt, hjs, r2, hmr2, hcol1, hcol2⟩
            exfalso
            rcases Nat.lt_or_ge j s with hji | hji
            · rcases hm.2 j hjlt s hs r2 p0 hmr2 hms hjs with hd | hd
              · omega
              · omega
            · exact absurd hmr2 (by rw [hcanResize j hcol1 hji hjs]; simp)
      · injection hr with hr2
        have he : m2 = m := by
          rw [← hr2]
          funext j
          by_cases hjs : j = s
          · subst hjs
            simp
          · rw [if_neg hjs, smErase_other m s j hjs]
        exact ⟨hunch he, fun _ => he⟩
    · injection hr with hr2
      exact ⟨hunch hr2.symm, fun _ => hr2.symm⟩
  · injection hr with hr2
    exact ⟨hunch hr2.symm, fun _ => hr2.symm⟩

theorem c5_resize_no_collision_witness :
    (∃ q, mA 3 = some q ∧ q.taskId = (⟨1, 5⟩ : Placement).taskId ∧
      ∀ j r2, mA j = some r2 → j < numSlots → j ≠ 3 →
        j + r2.duration ≤ 3 ∨ 3 + q.duration ≤ j) ∧
    ((∃ j, j < numSlots ∧ j ≠ 3 ∧ ∃ r2, mA j = some r2 ∧
        j < 3 + candidateDuration 3 5 ∧ 3 < j + r2.duration) →
      mA = mA) :=
  c5_resize_no_collision mA 3 5 ⟨1, 5⟩ mA mA_invariant (by decide) (by decide) rfl


/-- Claim C6: for every input whose trim is non-empty, `addTask` appends
exactly one new task to the end of the task store with
`isCompleted = false` and `completedAt = null` (size increases by one,
existing tasks unchanged); for every input whose trim is empty, `addTask`
leaves the store unchanged. -/
theorem c6_add_task (tasks : List Task) (text : String) (now : Nat) :
    (jsTrim text ≠ "" →
      (addTask tasks text now).length = tasks.length + 1 ∧
      (addTask tasks text now).take tasks.length = tasks ∧
      ∃ t, addTask tasks text now = tasks ++ [t] ∧
        t.isCompleted = false ∧ t.completedAt = none) ∧
    (jsTrim text = "" → addTask tasks text now = tasks) := by
  constructor
  · intro h
    rw [addTask, if_pos h]
    refine ⟨by simp, ?_, ⟨now, jsTrim text, false, none⟩, rfl, rfl, rfl⟩
    rw [List.take_left]
  · intro h
    rw [addTask, if_neg (by simp [h])]

theorem c6_add_task_witness :
    (addTask [] " hi " 7).length = ([] : List Task).length + 1 ∧
    addTask [] "   " 7 = [] := by
  exact ⟨((c6_add_task [] " hi " 7).1 (by decide)).1,
    (c6_add_task [] "   " 7).2 (by decide)⟩

/-- Claim C7 counterexample: `addTask` derives the id from
`Date.now().toString()`, so two adds at the same clock timestamp assign
the same id: after `add("a")` and `add("b")` both at timestamp 5 the
store's two tasks share one id, refuting "assigns an id distinct from the
id of every task already in the store ... including two adds occurring at
the same clock timestamp". -/
theorem c7_id_counterexample :
    (addTask (addTask [] "a" 5) "b" 5).map Task.id = [5, 5] ∧
    ¬ ((addTask (addTask [] "a" 5) "b" 5).map Task.id).Nodup := by
  constructor
  · decide
  · decide

/-- Claim C7 (amended): a created task's id is the creation timestamp, so
it is distinct from the ids of all existing tasks provided no existing
task carries the current timestamp as its id (in particular, adds at
pairwise distinct timestamps keep ids unique across the store); two adds
at the same clock timestamp however assign the same id (see the
counterexample). -/
theorem c7_id_uniqueness (tasks : List Task) (text : String) (now : Nat)
    (htrim : jsTrim text ≠ "") (hfresh : ∀ t ∈ tasks, t.id ≠ now)
    (hnodup : (tasks.map Task.id).Nodup) :
    ((addTask tasks text now).map Task.id).Nodup := by
  rw [addTask, if_pos htrim, List.map_append]
  apply List.Nodup.append hnodup (by simp)
  intro a ha hb
  simp at hb
  rcases List.mem_map.mp ha with ⟨t, ht, hid⟩
  exact hfresh t ht (by rw [hid, hb])

theorem c7_id_uniqueness_witness :
    ((addTask [⟨1, "a", false, none⟩] "b" 2).map Task.id).Nodup :=
  c7_id_uniqueness [⟨1, "a", false, none⟩] "b" 2 (by decide) (by decide)
    (by decide)

/-- Claim C8 counterexample: the sweep's guard tests JavaScript truthiness
of `task.completedAt`, which treats the timestamp 0 as if it were null: a
task completed at timestamp 0 is NOT removed at time 400000 although it is
completed, has a non-null `completedAt`, and is past the 5-minute
retention window — refuting the claimed "removes ... if and only if". -/
theorem c8_sweep_counterexample :
    sweepTasks [⟨1, "x", true, some 0⟩] 400000 = [⟨1, "x", true, some 0⟩] ∧
    (⟨1, "x", true, some 0⟩ : Task).isCompleted = true ∧
    (⟨1, "x", true, some 0⟩ : Task).completedAt ≠ none ∧
    400000 - 0 > AUTO_DELETE_DELAY := by
  refine ⟨?_, rfl, by decide, by decide⟩
  decide

/-- Claim C8 (amended): a sweep run at time `now` removes a task if and
only if the task is completed, has a non-null and non-zero `completedAt`,
and `now - completedAt` strictly exceeds the 5-minute retention window
(so a completed task is never removed at or before the boundary, an
incomplete task is never removed, and — the truthiness quirk — a
`completedAt` of exactly 0 is treated as null and never removed). -/
theorem c8_sweep_boundary (tasks : List Task) (now : Nat) (t : Task)
    (ht : t ∈ tasks) :
    t ∉ sweepTasks tasks now ↔
      t.isCompleted = true ∧ ∃ c, t.completedAt = some c ∧ c ≠ 0 ∧
        now - c > AUTO_DELETE_DELAY := by
  unfold sweepTasks
  rw [List.mem_filter]
  rcases t with ⟨tid, ttext, tcomp, tca⟩
  rcases tca with _ | c
  · simp [completedAtTruthy, ht]
  · simp [completedAtTruthy, ht]
    constructor
    · rintro ⟨⟨h1, h2⟩, h3⟩
      exact ⟨h1, h2, by omega⟩
    · rintro ⟨h1, h2, h3⟩
      exact ⟨⟨h1, h2⟩, by omega⟩

theorem c8_sweep_boundary_witness :
    (⟨1, "a", true, some 100⟩ : Task) ∉
      sweepTasks [⟨1, "a", true, some 100⟩] 500000 :=
  (c8_sweep_boundary [⟨1, "a", true, some 100⟩] 500000 ⟨1, "a", true, some 100⟩
    (by decide)).mpr ⟨rfl, 100, rfl, by decide, by decide⟩


/-- Claim C9 counterexample: `removeTask` always writes the (copied) day
map back under the day key, so calling it with a previously absent day key
CREATES that key, bound to an empty map: the store is not left unchanged.
This refutes "no day-key of the store (including a previously absent
dayKey) is changed or created". -/
theorem c9_remove_counterexample :
    (fun _ => none : AllSchedules) "2025-03-01" = none ∧
    removeTask (fun _ => none) "2025-03-01" 4 "2025-03-01" ≠ none := by
  constructor
  · rfl
  · intro h
    rw [removeTask] at h
    simp at h

/-- Claim C9 (amended): `removePlacement(dayKey, startSlot)` deletes the
single entry keyed by `startSlot` of that day's map when present and
leaves every other slot of that day and every other day key unchanged;
the entry for the target day key itself however is always rewritten (and
is created, bound to an empty map, when the day key was absent — see the
counterexample). -/
theorem c9_remove_frame (store : AllSchedules) (dayKey : String) (slot : Nat) :
    (∀ k2, k2 ≠ dayKey → removeTask store dayKey slot k2 = store k2) ∧
    (∃ dm, removeTask store dayKey slot dayKey = some dm ∧
      dm slot = none ∧
      ∀ j, j ≠ slot → dm j = ((store dayKey).getD emptySchedule) j) := by
  constructor
  · intro k2 hk2
    rw [removeTask, if_neg hk2]
  · refine ⟨smErase ((store dayKey).getD emptySchedule) slot, ?_, ?_, ?_⟩
    · rw [removeTask, if_pos rfl]
    · exact smErase_self _ _
    · intro j hj
      exact smErase_other _ _ _ hj

theorem c9_remove_frame_witness :
    removeTask (fun _ => none) "2025-03-01" 4 "2025-03-02" = none :=
  (c9_remove_frame (fun _ => none) "2025-03-01" 4).1 "2025-03-02" (by decide)

/-- Claim C10: a drop whose dragged task exists in the task store and is
completed is ignored — the schedule store is returned unchanged and no
placement is created. -/
theorem c10_completed_drop_ignored (tasks : List Task) (store : AllSchedules)
    (dayKey : String) (id : Nat) (time : Nat) (t : Task)
    (hfind : tasks.find? (fun t2 => t2.id = id) = some t)
    (hcomp : t.isCompleted = true) :
    (handleDrop tasks store dayKey (some id) time).1 = store := by
  unfold handleDrop
  dsimp only
  rw [hfind]
  simp [hcomp]

theorem c10_completed_drop_ignored_witness :
    (handleDrop [⟨1, "a", true, some 2⟩] (fun _ => none) "2025-03-01"
      (some 1) 0).1 = (fun _ => none : AllSchedules) :=
  c10_completed_drop_ignored [⟨1, "a", true, some 2⟩] (fun _ => none)
    "2025-03-01" 1 0 ⟨1, "a", true, some 2⟩ (by decide) rfl

end Scheduler
